import Mathlib

/-!
Verification of `logger_cloudwatch_structlog` (files
`custom_processors.py` and `functions.py`).

The embedding models the event-processing pipeline of the library:

* `Value` is the model of the Python values that occur in an event
  dictionary: `None`, booleans, integers, strings, lists and
  string-keyed dictionaries (the JSON-representable values that the
  default serializer `json.dumps` handles natively).
* `EventDict` models a Python `dict` with string keys: an association
  list in insertion order; `getVal` is `dict.get`, `setKey` is item
  assignment (replace in place, append when the key is new).
* `censor_every_word`, `_make_censor`, `PasswordCensor` embed the
  censor stage of `custom_processors.py`.
* `AWSCloudWatchLogs` embeds the callout-and-render stage; the
  serializer is modelled by `json_dumps` (the behaviour of `json.dumps`
  with its default separators, on the values of `Value`, emitting
  non-ASCII characters literally as UTF-8 text).
* `json_loads` models an external JSON parser (integer numerals), used
  to state the serialize/parse round-trip property.

Python dynamic typing of the configuration arguments is modelled by the
small sum types `WordlistArg` and `CalloutsArg`, which cover the shapes
the claims are about.
-/

namespace LoggerCloudwatch

/-- Model of the Python values occurring in an event dictionary:
`None`, `bool`, `int`, `str`, `list`, and string-keyed `dict`
(the values `json.dumps` serializes natively). -/
inductive Value : Type where
  | null : Value
  | bool (b : Bool) : Value
  | int (n : Int) : Value
  | str (s : String) : Value
  | list (xs : List Value) : Value
  | dict (kvs : List (String × Value)) : Value

/-- Model of a Python `dict` with string keys (an `EventDict` in
structlog terms): an association list kept in insertion order. -/
abbrev EventDict : Type := List (String × Value)

/-- `d.get(key)` on a Python dict: the value at the first matching key,
`None` (here `none`) when the key is absent. -/
def getVal : EventDict → String → Option Value
  | [], _ => none
  | (k, v) :: rest, key => if k = key then some v else getVal rest key

/-- `d[key] = v` on a Python dict: replace the value in place when the
key is present, append the new pair otherwise (insertion order). -/
def setKey : EventDict → String → Value → EventDict
  | [], key, v => [(key, v)]
  | (k, w) :: rest, key, v =>
      if k = key then (k, v) :: rest else (k, w) :: setKey rest key v

/-- Python truthiness (`if pw:`) of a `Value`. -/
def truthy : Value → Bool
  | .null => false
  | .bool b => b
  | .int n => n != 0
  | .str s => !s.isEmpty
  | .list xs => !xs.isEmpty
  | .dict kvs => !kvs.isEmpty

/-- Truthiness of the result of `dict.get`: `None` (absent key) is
falsy. -/
def truthyOpt : Option Value → Bool
  | some v => truthy v
  | none => false

/-- The fixed redaction marker written by the censor stage. -/
def censoredMarker : Value := .str "*CENSORED*"

/-- The inner `censor_every_word` closure of `_make_censor`: for every
key of the wordlist, if `event_dict.get(key)` is truthy the entry is
overwritten with `"*CENSORED*"`. -/
def censor_every_word (wordlist : List String) (event_dict : EventDict) :
    EventDict :=
  wordlist.foldl
    (fun d key => if truthyOpt (getVal d key) then setKey d key censoredMarker else d)
    event_dict

/-- The dynamic type of the `wordlist` argument of `_make_censor` /
`PasswordCensor.__init__`: `None`, a tuple or list of key strings, or a
value of another Python type (a single string, a mapping, an integer). -/
inductive WordlistArg : Type where
  | none : WordlistArg
  | tuple (ws : List String) : WordlistArg
  | list (ws : List String) : WordlistArg
  | str (s : String) : WordlistArg
  | dict (kvs : List (String × Value)) : WordlistArg
  | int (n : Int) : WordlistArg

/-- The censor function returned by `_make_censor`: either the
`nothing_to_do` identity closure or a `censor_every_word` closure over
the captured wordlist. -/
inductive CensorSpec : Type where
  | identity : CensorSpec
  | censorList (wordlist : List String) : CensorSpec
deriving DecidableEq

/-- Run a censor function produced by `_make_censor`. -/
def runCensor : CensorSpec → EventDict → EventDict
  | .identity, d => d
  | .censorList ws, d => censor_every_word ws d

/-- `_make_censor` of `custom_processors.py`: `None` yields the
identity closure, a tuple or list yields `censor_every_word` over it,
and any other type raises `ValueError` (modelled as `Except.error`). -/
def make_censor : WordlistArg → Except String CensorSpec
  | .none => .ok .identity
  | .tuple ws => .ok (.censorList ws)
  | .list ws => .ok (.censorList ws)
  | _ => .error "The wordlist must be a tuple or a list"

/-- The state of a constructed `PasswordCensor` processor: the stored
`_wordlist` and the derived `_censor` function. -/
structure PasswordCensor : Type where
  wordlist : WordlistArg
  censor : CensorSpec

/-- `PasswordCensor.__init__`: stores the wordlist and derives the
censor via `_make_censor`; a `ValueError` raised there propagates out
of construction (modelled as `Except.error`). -/
def PasswordCensor.init (wordlist : WordlistArg) :
    Except String PasswordCensor :=
  (make_censor wordlist).map (fun c => ⟨wordlist, c⟩)

/-- `PasswordCensor.__call__`: applies the stored censor function to
the event dictionary. -/
def PasswordCensor.call (self : PasswordCensor) (event_dict : EventDict) :
    EventDict :=
  runCensor self.censor event_dict

/-- The opening-brace character, written via its code point. -/
def openBrace : Char := Char.ofNat 123

/-- The closing-brace character, written via its code point. -/
def closeBrace : Char := Char.ofNat 125

/-- The single-quote character, written via its code point. -/
def squote : Char := Char.ofNat 39

/-- The decimal digit character for `d < 10`. -/
def digitChar (d : Nat) : Char := Char.ofNat (48 + d)

/-- The lowercase hexadecimal digit character for `d < 16`. -/
def hexChar (d : Nat) : Char :=
  if d < 10 then Char.ofNat (48 + d) else Char.ofNat (87 + d)

/-- Decimal digits of a natural number, most significant first, with
explicit recursion fuel (any fuel above the number suffices). -/
def natCharsFuel : Nat → Nat → List Char
  | 0, _ => []
  | fuel + 1, n =>
      if n < 10 then [digitChar n]
      else natCharsFuel fuel (n / 10) ++ [digitChar (n % 10)]

/-- Decimal digits of a natural number, most significant first
(Python `str(n)` for `n ≥ 0`). -/
def natChars (n : Nat) : List Char := natCharsFuel (n + 1) n

/-- Decimal rendering of an integer (Python `str(n)`), with a leading
minus sign for negative numbers. -/
def intChars (n : Int) : List Char :=
  if n < 0 then '-' :: natChars n.natAbs else natChars n.natAbs

/-- JSON string escaping of one character, as `json.dumps` performs it
on UTF-8 output: quote, backslash and the named control characters get
two-character escapes, the remaining control characters get a
`\u00xx` escape, every other character is emitted literally. -/
def escapeChar (c : Char) : List Char :=
  if c = '"' then ['\\', '"']
  else if c = '\\' then ['\\', '\\']
  else if c = '\n' then ['\\', 'n']
  else if c = '\t' then ['\\', 't']
  else if c = '\r' then ['\\', 'r']
  else if c.toNat = 8 then ['\\', 'b']
  else if c.toNat = 12 then ['\\', 'f']
  else if c.toNat < 32 then
    ['\\', 'u', '0', '0', hexChar (c.toNat / 16), hexChar (c.toNat % 16)]
  else [c]

/-- JSON string escaping of a character sequence. -/
def escapeChars : List Char → List Char
  | [] => []
  | c :: rest => escapeChar c ++ escapeChars rest

mutual

/-- Serialization of one `Value` as `json.dumps` renders it with its
default separators `", "` and `": "`. -/
def dumpVal : Value → List Char
  | .null => "null".data
  | .bool true => "true".data
  | .bool false => "false".data
  | .int n => intChars n
  | .str s => '"' :: (escapeChars s.data ++ ['"'])
  | .list xs => '[' :: (dumpElems xs ++ [']'])
  | .dict kvs => openBrace :: (dumpMembers kvs ++ [closeBrace])
termination_by structural v => v

/-- Serialization of the comma-separated elements of a JSON array. -/
def dumpElems : List Value → List Char
  | [] => []
  | x :: rest =>
      dumpVal x ++ ((if rest.isEmpty then [] else [',', ' ']) ++ dumpElems rest)
termination_by structural l => l

/-- Serialization of the comma-separated members of a JSON object. -/
def dumpMembers : List (String × Value) → List Char
  | [] => []
  | (k, v) :: rest =>
      ('"' :: (escapeChars k.data ++ ['"', ':', ' '])) ++ dumpVal v
        ++ ((if rest.isEmpty then [] else [',', ' ']) ++ dumpMembers rest)
termination_by structural l => l

end

/-- `json.dumps` on a `Value`, as a string. -/
def json_dumps (v : Value) : String := String.mk (dumpVal v)

mutual

/-- Python `repr()` of a `Value` (string values single-quoted,
containers in bracketed notation). Used by the render stage only
through `pyStr`, for interpolating a callout value into the header. -/
def pyReprChars : Value → List Char
  | .null => ['N', 'o', 'n', 'e']
  | .bool true => ['T', 'r', 'u', 'e']
  | .bool false => ['F', 'a', 'l', 's', 'e']
  | .int n => intChars n
  | .str s => squote :: (s.data ++ [squote])
  | .list xs => '[' :: (pyReprElems xs ++ [']'])
  | .dict kvs => openBrace :: (pyReprMembers kvs ++ [closeBrace])
termination_by structural v => v

/-- Python `repr()` of the elements of a list. -/
def pyReprElems : List Value → List Char
  | [] => []
  | x :: rest =>
      pyReprChars x
        ++ ((if rest.isEmpty then [] else [',', ' ']) ++ pyReprElems rest)
termination_by structural l => l

/-- Python `repr()` of the items of a dict. -/
def pyReprMembers : List (String × Value) → List Char
  | [] => []
  | (k, v) :: rest =>
      (squote :: (k.data ++ [squote, ':', ' '])) ++ pyReprChars v
        ++ ((if rest.isEmpty then [] else [',', ' ']) ++ pyReprMembers rest)
termination_by structural l => l

end

/-- Python `str()` of a `Value`, as an f-string interpolates it:
strings are taken verbatim, everything else renders as its `repr`. -/
def pyStr : Value → String
  | .str s => s
  | v => String.mk (pyReprChars v)

/-- Python `str.upper()` as the render stage applies it to the method
name (uppercasing character by character). -/
def pyUpper (s : String) : String := String.mk (s.data.map Char.toUpper)

/-- The dynamic type of the `callouts` argument of
`AWSCloudWatchLogs.__init__`: `None`, a list of key strings, or a
non-subscriptable value of another type (an integer). -/
inductive CalloutsArg : Type where
  | none : CalloutsArg
  | list (l : List String) : CalloutsArg
  | int (n : Int) : CalloutsArg
deriving DecidableEq

/-- The `try: callouts[i] except (IndexError, TypeError): None` pattern
of `AWSCloudWatchLogs.__init__`: indexing out of range (`IndexError`)
or into a non-subscriptable value (`TypeError`) yields `None`. -/
def calloutIndex : CalloutsArg → Nat → Option String
  | .list l, i => l[i]?
  | _, _ => Option.none

/-- The state of a constructed `AWSCloudWatchLogs` renderer: the two
callout keys (with the serializer fixed to the `json.dumps` default,
modelled by `json_dumps`). -/
structure AWSCloudWatchLogs : Type where
  callout_one_key : Option String
  callout_two_key : Option String
deriving DecidableEq

/-- `AWSCloudWatchLogs.__init__`: extract the first two callout keys
from the `callouts` argument, treating missing positions as `None`. -/
def AWSCloudWatchLogs.ofCallouts (callouts : CalloutsArg) :
    AWSCloudWatchLogs :=
  ⟨calloutIndex callouts 0, calloutIndex callouts 1⟩

/-- `event_dict.get(key, None)` where the key may itself be `None`
(an unconfigured callout key matches nothing, since every dict key is
a string). -/
def dictGet (event_dict : EventDict) : Option String → Option Value
  | some key => getVal event_dict key
  | Option.none => Option.none

/-- `AWSCloudWatchLogs.__call__`: build the `[NAME] ` header, append a
`"<value>" ` segment for each configured callout key whose value in the
event dict is truthy, then append the serialized event dict. -/
def AWSCloudWatchLogs.call (self : AWSCloudWatchLogs) (name : String)
    (event_dict : EventDict) : String :=
  let header := "[" ++ pyUpper name ++ "] "
  let callout_one := dictGet event_dict self.callout_one_key
  let callout_two := dictGet event_dict self.callout_two_key
  let header1 :=
    match callout_one with
    | some v => if truthy v then header ++ "\"" ++ pyStr v ++ "\" " else header
    | Option.none => header
  let header2 :=
    match callout_two with
    | some v => if truthy v then header1 ++ "\"" ++ pyStr v ++ "\" " else header1
    | Option.none => header1
  header2 ++ json_dumps (.dict event_dict)

/-- The default of the `callouts` parameter in the signature of
`setup_logging` in `functions.py`: `callouts: List = None`. -/
def setup_logging_default_callouts : CalloutsArg := CalloutsArg.none

/-- The default taken by `callouts` in `setup_and_get_logger` in
`functions.py`: `kwargs.pop('callouts', ["status_code", "event"])`. -/
def setup_and_get_logger_default_callouts : CalloutsArg :=
  CalloutsArg.list ["status_code", "event"]

/-- JSON whitespace. -/
def isWs (c : Char) : Bool := c = ' ' || c = '\n' || c = '\t' || c = '\r'

/-- Drop leading JSON whitespace. -/
def skipWs : List Char → List Char
  | [] => []
  | c :: rest => if isWs c then skipWs rest else c :: rest

/-- Numeric value of a hexadecimal digit character. -/
def hexVal (c : Char) : Option Nat :=
  if 48 ≤ c.toNat ∧ c.toNat ≤ 57 then some (c.toNat - 48)
  else if 97 ≤ c.toNat ∧ c.toNat ≤ 102 then some (c.toNat - 87)
  else if 65 ≤ c.toNat ∧ c.toNat ≤ 70 then some (c.toNat - 55)
  else Option.none

/-- Numeric value of a decimal digit character. -/
def digitVal (c : Char) : Nat := c.toNat - 48

/-- Parse a nonempty run of decimal digits into a natural number. -/
def parseNatChars (s : List Char) : Option (Nat × List Char) :=
  let digs := s.takeWhile Char.isDigit
  if digs.isEmpty then Option.none
  else some (digs.foldl (fun a c => a * 10 + digitVal c) 0, s.dropWhile Char.isDigit)

/-- Parse an optionally negated decimal integer numeral. -/
def parseIntChars : List Char → Option (Int × List Char)
  | [] => Option.none
  | c :: rest =>
      if c = '-' then (parseNatChars rest).map (fun p => (-(p.1 : Int), p.2))
      else (parseNatChars (c :: rest)).map (fun p => ((p.1 : Int), p.2))

/-- Decode one JSON string escape (the character after a backslash,
with the remaining input); a `\uXXXX` escape is rejected when it names
a surrogate code point. -/
def unescapeChar (c : Char) (rest : List Char) : Option (Char × List Char) :=
  if c = '"' then some ('"', rest)
  else if c = '\\' then some ('\\', rest)
  else if c = '/' then some ('/', rest)
  else if c = 'n' then some ('\n', rest)
  else if c = 't' then some ('\t', rest)
  else if c = 'r' then some ('\r', rest)
  else if c = 'b' then some (Char.ofNat 8, rest)
  else if c = 'f' then some (Char.ofNat 12, rest)
  else if c = 'u' then
    match rest with
    | h1 :: h2 :: h3 :: h4 :: r =>
      match hexVal h1, hexVal h2, hexVal h3, hexVal h4 with
      | some a, some b, some c2, some d =>
        let code := ((a * 16 + b) * 16 + c2) * 16 + d
        if 0xD800 ≤ code ∧ code ≤ 0xDFFF then Option.none
        else some (Char.ofNat code, r)
      | _, _, _, _ => Option.none
    | _ => Option.none
  else Option.none

/-- Parse the body of a JSON string (after the opening quote) up to and
including the closing quote; unescaped control characters are
rejected. The first argument is recursion fuel. -/
def parseStrBody : Nat → List Char → Option (List Char × List Char)
  | 0, _ => Option.none
  | fuel + 1, s =>
    match s with
    | [] => Option.none
    | c :: rest =>
      if c = '"' then some ([], rest)
      else if c = '\\' then
        match rest with
        | [] => Option.none
        | e :: rest1 =>
          match unescapeChar e rest1 with
          | some (ch, rest2) =>
              (parseStrBody fuel rest2).map (fun p => (ch :: p.1, p.2))
          | Option.none => Option.none
      else if c.toNat < 32 then Option.none
      else (parseStrBody fuel rest).map (fun p => (c :: p.1, p.2))

mutual

/-- Parse one JSON value (with integer numerals), skipping leading
whitespace. The first argument is recursion fuel. -/
def parseVal : Nat → List Char → Option (Value × List Char)
  | 0, _ => Option.none
  | fuel + 1, s =>
    match skipWs s with
    | [] => Option.none
    | c :: rest =>
      if c = '"' then
        (parseStrBody fuel rest).map (fun p => (Value.str (String.mk p.1), p.2))
      else if c = '[' then
        match skipWs rest with
        | c2 :: rest2 =>
          if c2 = ']' then some (.list [], rest2)
          else (parseElems fuel (c2 :: rest2)).map (fun p => (Value.list p.1, p.2))
        | [] => Option.none
      else if c = openBrace then
        match skipWs rest with
        | c2 :: rest2 =>
          if c2 = closeBrace then some (.dict [], rest2)
          else (parseMembers fuel (c2 :: rest2)).map (fun p => (Value.dict p.1, p.2))
        | [] => Option.none
      else if c = 'n' then
        match rest with
        | 'u' :: 'l' :: 'l' :: r => some (.null, r)
        | _ => Option.none
      else if c = 't' then
        match rest with
        | 'r' :: 'u' :: 'e' :: r => some (.bool true, r)
        | _ => Option.none
      else if c = 'f' then
        match rest with
        | 'a' :: 'l' :: 's' :: 'e' :: r => some (.bool false, r)
        | _ => Option.none
      else
        (parseIntChars (c :: rest)).map (fun p => (Value.int p.1, p.2))

/-- Parse the elements of a nonempty JSON array, consuming the closing
bracket. -/
def parseElems : Nat → List Char → Option (List Value × List Char)
  | 0, _ => Option.none
  | fuel + 1, s =>
    match parseVal fuel s with
    | some (v, r) =>
      match skipWs r with
      | c :: r2 =>
        if c = ',' then (parseElems fuel r2).map (fun p => (v :: p.1, p.2))
        else if c = ']' then some ([v], r2)
        else Option.none
      | [] => Option.none
    | Option.none => Option.none

/-- Parse the members of a nonempty JSON object, consuming the closing
brace. -/
def parseMembers : Nat → List Char → Option (List (String × Value) × List Char)
  | 0, _ => Option.none
  | fuel + 1, s =>
    match skipWs s with
    | c :: rest =>
      if c = '"' then
        match parseStrBody fuel rest with
        | some (kcs, r1) =>
          match skipWs r1 with
          | c2 :: r2 =>
            if c2 = ':' then
              match parseVal fuel r2 with
              | some (v, r3) =>
                match skipWs r3 with
                | c3 :: r4 =>
                  if c3 = ',' then
                    (parseMembers fuel r4).map
                      (fun p => ((String.mk kcs, v) :: p.1, p.2))
                  else if c3 = closeBrace then some ([(String.mk kcs, v)], r4)
                  else Option.none
                | [] => Option.none
              | Option.none => Option.none
            else Option.none
          | [] => Option.none
        | Option.none => Option.none
      else Option.none
    | [] => Option.none

end

/-- Model of an external JSON parser (`json.loads` restricted to
integer numerals): parse one value and require only trailing
whitespace after it. -/
def json_loads (s : String) : Option Value :=
  match parseVal (s.length + 1) s.data with
  | some (v, rest) => if (skipWs rest).isEmpty then some v else Option.none
  | Option.none => Option.none

/-- The body of the `for key in wordlist` loop of `censor_every_word`,
as a named function of the running event dict and the current key. -/
def censorStep (d : EventDict) (key : String) : EventDict :=
  if truthyOpt (getVal d key) then setKey d key censoredMarker else d

/-- Whether a wordlist argument is of one of the accepted shapes of
`_make_censor`: unset (`None`), a tuple, or a list. -/
def wordlistIsSequenceOrUnset : WordlistArg → Bool
  | .none => true
  | .tuple _ => true
  | .list _ => true
  | _ => false

/-- The callout keys a configuration designates, read off the
configuration itself (the spec's notion of "configured callout keys"):
the entries of a list argument, nothing otherwise. -/
def calloutKeys : CalloutsArg → List String
  | .list l => l
  | _ => []

/-- The header segment the spec prescribes for one callout key: the
quoted value followed by a space when the key is present in the record
with a truthy value, nothing otherwise. -/
def calloutSegment (d : EventDict) (k : String) : Option String :=
  match getVal d k with
  | some v => if truthy v then some ("\"" ++ pyStr v ++ "\" ") else Option.none
  | Option.none => Option.none

/-- Concatenation of a list of strings. -/
def concatStrings : List String → String
  | [] => ""
  | s :: rest => s ++ concatStrings rest

/-- The callout part of the header as the spec describes it: exactly
the segments of the configured callout keys that are present in the
record with a truthy value, in configuration order. -/
def headerCallouts (callouts : CalloutsArg) (d : EventDict) : String :=
  concatStrings ((calloutKeys callouts).filterMap (calloutSegment d))

/-- Whether a character sequence does not start with a decimal digit
(the shape of the input that may legally follow a JSON numeral). -/
def noLeadingDigit : List Char → Bool
  | [] => true
  | c :: _ => !c.isDigit

mutual

/-- Recursion fuel sufficient for `parseVal` to parse the output of
`dumpVal` on a value. -/
def cost : Value → Nat
  | .null => 1
  | .bool _ => 1
  | .int _ => 1
  | .str s => 1 + (s.length + 1)
  | .list xs => 1 + costElems xs
  | .dict kvs => 1 + costMembers kvs
termination_by structural v => v

/-- Fuel sufficient for `parseElems` on the output of `dumpElems`. -/
def costElems : List Value → Nat
  | [] => 0
  | x :: rest => 1 + cost x + costElems rest
termination_by structural l => l

/-- Fuel sufficient for `parseMembers` on the output of
`dumpMembers`. -/
def costMembers : List (String × Value) → Nat
  | [] => 0
  | (k, v) :: rest => 1 + (k.length + 1) + 1 + cost v + costMembers rest
termination_by structural l => l

end

theorem getVal_setKey (d : EventDict) (k : String) (v : Value) (k' : String) :
    getVal (setKey d k v) k' = if k = k' then some v else getVal d k' := by
  induction d with
  | nil => by_cases h : k = k' <;> simp [setKey, getVal, h]
  | cons a rest ih =>
    obtain ⟨ak, av⟩ := a
    simp only [setKey]
    by_cases hak : ak = k
    · subst hak
      by_cases h : ak = k' <;> simp [getVal, h]
    · rw [if_neg hak]
      by_cases h : ak = k'
      · subst h
        have hkk : ¬ k = ak := fun hh => hak hh.symm
        simp [getVal, hkk]
      · simp [getVal, h, ih]

theorem setKey_getVal_self (d : EventDict) (k : String) (v : Value)
    (h : getVal d k = some v) : setKey d k v = d := by
  induction d with
  | nil => simp [getVal] at h
  | cons a rest ih =>
    obtain ⟨ak, av⟩ := a
    by_cases hak : ak = k
    · subst hak
      simp [getVal] at h
      simp [setKey, h]
    · simp [getVal, hak] at h
      simp [setKey, hak, ih h]

theorem censor_every_word_eq (ws : List String) (d : EventDict) :
    censor_every_word ws d = ws.foldl censorStep d := rfl

theorem truthy_censoredMarker : truthy censoredMarker = true := rfl

theorem getVal_foldl_censorStep (ws : List String) (d : EventDict) (k : String) :
    getVal (ws.foldl censorStep d) k =
      if k ∈ ws ∧ truthyOpt (getVal d k) = true then some censoredMarker
      else getVal d k := by
  induction ws generalizing d with
  | nil => simp
  | cons w ws ih =>
    rw [List.foldl_cons, ih]
    by_cases hkw : k = w
    · subst hkw
      cases ht : truthyOpt (getVal d k) with
      | true =>
        have h1 : getVal (censorStep d k) k = some censoredMarker := by
          simp [censorStep, ht, getVal_setKey]
        rw [h1]
        by_cases hmem : k ∈ ws <;>
          simp [hmem, truthyOpt, truthy_censoredMarker, ht]
      | false =>
        have h1 : censorStep d k = d := by simp [censorStep, ht]
        rw [h1]
        simp [ht]
    · have hwk : ¬ w = k := fun hh => hkw hh.symm
      have h1 : getVal (censorStep d w) k = getVal d k := by
        cases ht : truthyOpt (getVal d w) with
        | true => simp [censorStep, ht, getVal_setKey, hwk]
        | false => simp [censorStep, ht]
      rw [h1]
      simp [hkw]

theorem foldl_censorStep_fixed (ws : List String) (d : EventDict)
    (h : ∀ k ∈ ws, censorStep d k = d) : ws.foldl censorStep d = d := by
  induction ws with
  | nil => rfl
  | cons w ws ih =>
    rw [List.foldl_cons, h w (List.mem_cons_self w ws)]
    exact ih (fun k hk => h k (List.mem_cons_of_mem w hk))

/-- C1: for every wordlist given as a tuple or a list and every event
record, the censor stage maps every wordlist key that is present in the
record with a truthy value to the fixed marker `"*CENSORED*"`, leaves
every other key unchanged, and adds no key that is absent from the
record (expressed pointwise for every key `k`). -/
theorem censor_stage_pointwise (w : WordlistArg) (ws : List String)
    (h : w = .tuple ws ∨ w = .list ws) (d : EventDict) (k : String) :
    make_censor w = .ok (.censorList ws) ∧
    getVal (censor_every_word ws d) k =
      (if k ∈ ws ∧ truthyOpt (getVal d k) = true then some censoredMarker
       else getVal d k) := by
  constructor
  · rcases h with h | h <;> subst h <;> rfl
  · rw [censor_every_word_eq]
    exact getVal_foldl_censorStep ws d k

theorem censor_stage_pointwise_witness :
    make_censor (.list ["password"]) = .ok (.censorList ["password"]) ∧
    getVal (censor_every_word ["password"]
        [("password", Value.str "abc123"), ("event", Value.str "login")])
        "password" =
      (if "password" ∈ ["password"] ∧
          truthyOpt (getVal
            [("password", Value.str "abc123"), ("event", Value.str "login")]
            "password") = true
       then some censoredMarker
       else getVal
            [("password", Value.str "abc123"), ("event", Value.str "login")]
            "password") :=
  censor_stage_pointwise (.list ["password"]) ["password"] (Or.inr rfl) _ _

/-- C8: the censor stage is idempotent — applying `censor_every_word`
twice with the same wordlist yields the same record as applying it
once (the marker itself is truthy and is re-replaced by itself). -/
theorem censor_stage_idempotent (ws : List String) (d : EventDict) :
    censor_every_word ws (censor_every_word ws d) = censor_every_word ws d := by
  rw [censor_every_word_eq, censor_every_word_eq]
  apply foldl_censorStep_fixed
  intro k hk
  have hg := getVal_foldl_censorStep ws d k
  simp only [censorStep]
  cases ht : truthyOpt (getVal d k) with
  | true =>
    have h1 : getVal (List.foldl censorStep d ws) k = some censoredMarker := by
      rw [hg]; simp [hk, ht]
    rw [h1]
    simp only [truthyOpt, truthy_censoredMarker, if_pos]
    exact setKey_getVal_self _ _ _ h1
  | false =>
    have h1 : getVal (List.foldl censorStep d ws) k = getVal d k := by
      rw [hg]; simp [ht]
    rw [h1]
    simp [ht]

/-- C5: with an unset wordlist (`None`), `_make_censor` returns the
`nothing_to_do` identity closure, so the censor stage returns every
event record unchanged. -/
theorem censor_stage_identity_when_unset :
    make_censor WordlistArg.none = .ok CensorSpec.identity ∧
    ∀ d : EventDict, runCensor CensorSpec.identity d = d :=
  ⟨rfl, fun _ => rfl⟩

/-- C3: constructing `PasswordCensor` with a wordlist that is neither a
tuple, a list, nor unset (for example a single string or a mapping)
raises `ValueError` at construction time (`__init__` calls
`_make_censor`, which raises before any log call is processed). -/
theorem censor_stage_rejects_non_sequence (w : WordlistArg)
    (h : wordlistIsSequenceOrUnset w = false) :
    PasswordCensor.init w = .error "The wordlist must be a tuple or a list" := by
  cases w <;> simp_all [wordlistIsSequenceOrUnset] <;> rfl

theorem censor_stage_rejects_non_sequence_witness :
    PasswordCensor.init (.str "password") =
      .error "The wordlist must be a tuple or a list" ∧
    PasswordCensor.init (.dict [("password", Value.str "x")]) =
      .error "The wordlist must be a tuple or a list" :=
  ⟨censor_stage_rejects_non_sequence (.str "password") rfl,
   censor_stage_rejects_non_sequence (.dict [("password", Value.str "x")]) rfl⟩

/-- C4 as stated is false: `setup_logging` does not default `callouts`
to the two application-specific field names — its signature defaults
the parameter to `None`, which differs from
`["status_code", "event"]`. -/
theorem setup_logging_callouts_default_not_status_event :
    setup_logging_default_callouts = CalloutsArg.none ∧
    setup_logging_default_callouts ≠ CalloutsArg.list ["status_code", "event"] := by
  constructor
  · rfl
  · intro h
    exact absurd h (by decide)

/-- C4 amended: only `setup_and_get_logger` defaults `callouts` to the
two application-specific field names `["status_code", "event"]`;
`setup_logging` defaults the parameter to `None` (no callouts). -/
theorem setup_entry_points_callouts_defaults :
    setup_and_get_logger_default_callouts =
      CalloutsArg.list ["status_code", "event"] ∧
    setup_logging_default_callouts = CalloutsArg.none :=
  ⟨rfl, rfl⟩

/-- C2: for a callout configuration designating at most two keys
(including unset), the render stage returns, for every event record
and method name, the `[NAME] ` header followed by exactly the quoted
segments of the configured callout keys present in the record with a
truthy value, in configuration order, followed by the serialized
record — with absent or falsy callouts silently skipped and no error
from missing keys. -/
theorem render_stage_header (callouts : CalloutsArg)
    (h : (calloutKeys callouts).length ≤ 2) (name : String) (d : EventDict) :
    (AWSCloudWatchLogs.ofCallouts callouts).call name d =
      ("[" ++ pyUpper name ++ "] ") ++ headerCallouts callouts d
        ++ json_dumps (.dict d) := by
  cases callouts with
  | none =>
    simp [AWSCloudWatchLogs.ofCallouts, AWSCloudWatchLogs.call, calloutIndex,
      dictGet, headerCallouts, calloutKeys, concatStrings, String.append_empty]
  | int n =>
    simp [AWSCloudWatchLogs.ofCallouts, AWSCloudWatchLogs.call, calloutIndex,
      dictGet, headerCallouts, calloutKeys, concatStrings, String.append_empty]
  | list l =>
    rcases l with _ | ⟨a, _ | ⟨b, _ | ⟨c, t⟩⟩⟩
    · simp [AWSCloudWatchLogs.ofCallouts, AWSCloudWatchLogs.call, calloutIndex,
        dictGet, headerCallouts, calloutKeys, concatStrings, String.append_empty]
    · cases hga : getVal d a with
      | none =>
        simp [AWSCloudWatchLogs.ofCallouts, AWSCloudWatchLogs.call, calloutIndex,
          dictGet, hga, headerCallouts, calloutKeys, calloutSegment,
          concatStrings, String.append_empty]
      | some v =>
        cases htv : truthy v with
        | true =>
          simp [AWSCloudWatchLogs.ofCallouts, AWSCloudWatchLogs.call,
            calloutIndex, dictGet, hga, htv, headerCallouts, calloutKeys,
            calloutSegment, concatStrings, String.append_empty,
            String.append_assoc] <;> try rfl
        | false =>
          simp [AWSCloudWatchLogs.ofCallouts, AWSCloudWatchLogs.call,
            calloutIndex, dictGet, hga, htv, headerCallouts, calloutKeys,
            calloutSegment, concatStrings, String.append_empty]
    · cases hga : getVal d a with
      | none =>
        cases hgb : getVal d b with
        | none =>
          simp [AWSCloudWatchLogs.ofCallouts, AWSCloudWatchLogs.call,
            calloutIndex, dictGet, hga, hgb, headerCallouts, calloutKeys,
            calloutSegment, concatStrings, String.append_empty]
        | some w =>
          cases htw : truthy w <;>
            simp [AWSCloudWatchLogs.ofCallouts, AWSCloudWatchLogs.call,
              calloutIndex, dictGet, hga, hgb, htw, headerCallouts,
              calloutKeys, calloutSegment, concatStrings,
              String.append_empty, String.append_assoc] <;> try rfl
      | some v =>
        cases htv : truthy v with
        | true =>
          cases hgb : getVal d b with
          | none =>
            simp [AWSCloudWatchLogs.ofCallouts, AWSCloudWatchLogs.call,
              calloutIndex, dictGet, hga, hgb, htv, headerCallouts,
              calloutKeys, calloutSegment, concatStrings,
              String.append_empty, String.append_assoc] <;> try rfl
          | some w =>
            cases htw : truthy w <;>
              simp [AWSCloudWatchLogs.ofCallouts, AWSCloudWatchLogs.call,
                calloutIndex, dictGet, hga, hgb, htv, htw, headerCallouts,
                calloutKeys, calloutSegment, concatStrings,
                String.append_empty, String.append_assoc] <;> try rfl
        | false =>
          cases hgb : getVal d b with
          | none =>
            simp [AWSCloudWatchLogs.ofCallouts, AWSCloudWatchLogs.call,
              calloutIndex, dictGet, hga, hgb, htv, headerCallouts,
              calloutKeys, calloutSegment, concatStrings,
              String.append_empty, String.append_assoc] <;> try rfl
          | some w =>
            cases htw : truthy w <;>
              simp [AWSCloudWatchLogs.ofCallouts, AWSCloudWatchLogs.call,
                calloutIndex, dictGet, hga, hgb, htv, htw, headerCallouts,
                calloutKeys, calloutSegment, concatStrings,
                String.append_empty, String.append_assoc] <;> try rfl
    · simp only [calloutKeys, List.length_cons] at h
      omega

theorem render_stage_header_witness :
    (calloutKeys (CalloutsArg.list ["status_code"])).length ≤ 2 ∧
    (AWSCloudWatchLogs.ofCallouts (CalloutsArg.list ["status_code"])).call
        "info" [("status_code", Value.int 200)] =
      ("[" ++ pyUpper "info" ++ "] ")
        ++ headerCallouts (CalloutsArg.list ["status_code"])
             [("status_code", Value.int 200)]
        ++ json_dumps (.dict [("status_code", Value.int 200)]) :=
  ⟨by decide,
   render_stage_header (CalloutsArg.list ["status_code"]) (by decide)
     "info" [("status_code", Value.int 200)]⟩

/-- C9: a callout list longer than two entries is accepted, only its
first two entries become callout keys, and entries beyond the second
have no effect on any rendered line. -/
theorem callouts_beyond_two_ignored (l : List String) (h : 2 < l.length) :
    AWSCloudWatchLogs.ofCallouts (.list l) =
      AWSCloudWatchLogs.ofCallouts (.list (l.take 2)) ∧
    ∀ (name : String) (d : EventDict),
      (AWSCloudWatchLogs.ofCallouts (.list l)).call name d =
        (AWSCloudWatchLogs.ofCallouts (.list (l.take 2))).call name d := by
  obtain ⟨a, b, c, t, rfl⟩ : ∃ a b c t, l = a :: b :: c :: t := by
    match l, h with
    | a :: b :: c :: t, _ => exact ⟨a, b, c, t, rfl⟩
  exact ⟨rfl, fun _ _ => rfl⟩

theorem callouts_beyond_two_ignored_witness :
    AWSCloudWatchLogs.ofCallouts (.list ["a", "b", "c"]) =
      AWSCloudWatchLogs.ofCallouts (.list (["a", "b", "c"].take 2)) ∧
    (AWSCloudWatchLogs.ofCallouts (.list ["a", "b", "c"])).call "info"
        [("a", Value.int 1)] =
      (AWSCloudWatchLogs.ofCallouts (.list (["a", "b", "c"].take 2))).call
        "info" [("a", Value.int 1)] :=
  ⟨(callouts_beyond_two_ignored ["a", "b", "c"] (by decide)).1,
   (callouts_beyond_two_ignored ["a", "b", "c"] (by decide)).2 "info"
     [("a", Value.int 1)]⟩

/-- C10: constructing the render stage with a `callouts` value that is
not subscriptable by integer position (an integer; `None` is the other
example) does not raise: both callout positions become `None`, and
every subsequent render behaves exactly as with no callouts
configured. -/
theorem callouts_non_subscriptable_safe (n : Int) :
    AWSCloudWatchLogs.ofCallouts (.int n) =
      AWSCloudWatchLogs.ofCallouts CalloutsArg.none ∧
    ∀ (name : String) (d : EventDict),
      (AWSCloudWatchLogs.ofCallouts (.int n)).call name d =
        (AWSCloudWatchLogs.ofCallouts CalloutsArg.none).call name d :=
  ⟨rfl, fun _ _ => rfl⟩

theorem isValidChar_of_lt_d800 (n : Nat) (h : n < 55296) : n.isValidChar :=
  Or.inl h

theorem toNat_ofNat_valid (n : Nat) (h : n.isValidChar) :
    (Char.ofNat n).toNat = n := by
  unfold Char.ofNat
  rw [dif_pos h]
  rfl

theorem toNat_digitChar (d : Nat) (h : d < 10) : (digitChar d).toNat = 48 + d :=
  toNat_ofNat_valid _ (isValidChar_of_lt_d800 _ (by omega))

theorem ne_char_of_toNat_ne (c c' : Char) (h : c.toNat ≠ c'.toNat) : c ≠ c' :=
  fun hh => h (congrArg Char.toNat hh)

theorem isDigit_iff (c : Char) :
    c.isDigit = true ↔ (48 ≤ c.toNat ∧ c.toNat ≤ 57) := by
  show (decide ('0' ≤ c) && decide (c ≤ '9')) = true ↔ _
  simp only [Bool.and_eq_true, decide_eq_true_eq]
  exact Iff.rfl

theorem isDigit_eq_false (c : Char) (h : c.toNat < 48 ∨ 57 < c.toNat) :
    c.isDigit = false := by
  cases hd : c.isDigit
  · rfl
  · exact absurd ((isDigit_iff c).mp hd) (by omega)

theorem isWs_eq_false (c : Char)
    (h : c.toNat ≠ 32 ∧ c.toNat ≠ 10 ∧ c.toNat ≠ 9 ∧ c.toNat ≠ 13) :
    isWs c = false := by
  unfold isWs
  have h1 : c ≠ ' ' :=
    ne_char_of_toNat_ne _ _ (by rw [show (' ').toNat = 32 from rfl]; omega)
  have h2 : c ≠ '\n' :=
    ne_char_of_toNat_ne _ _ (by rw [show ('\n').toNat = 10 from rfl]; omega)
  have h3 : c ≠ '\t' :=
    ne_char_of_toNat_ne _ _ (by rw [show ('\t').toNat = 9 from rfl]; omega)
  have h4 : c ≠ '\r' :=
    ne_char_of_toNat_ne _ _ (by rw [show ('\r').toNat = 13 from rfl]; omega)
  simp [h1, h2, h3, h4]

theorem skipWs_cons_of_not_ws (c : Char) (s : List Char) (h : isWs c = false) :
    skipWs (c :: s) = c :: s := by
  simp [skipWs, h]

theorem natCharsFuel_congr :
    ∀ fuel fuel' n, n < fuel → n < fuel' →
      natCharsFuel fuel n = natCharsFuel fuel' n := by
  intro fuel
  induction fuel with
  | zero => intro fuel' n h _; omega
  | succ f ih =>
    intro fuel' n h h'
    cases fuel' with
    | zero => omega
    | succ g =>
      simp only [natCharsFuel]
      by_cases h10 : n < 10
      · simp [h10]
      · rw [if_neg h10, if_neg h10, ih g (n / 10) (by omega) (by omega)]

theorem natChars_eq (n : Nat) :
    natChars n =
      if n < 10 then [digitChar n]
      else natChars (n / 10) ++ [digitChar (n % 10)] := by
  show natCharsFuel (n + 1) n = _
  by_cases h10 : n < 10
  · simp [natCharsFuel, h10]
  · simp only [natCharsFuel, if_neg h10]
    rw [natCharsFuel_congr n (n / 10 + 1) (n / 10) (by omega) (by omega)]
    rfl

theorem natChars_ne_nil (n : Nat) : natChars n ≠ [] := by
  rw [natChars_eq]
  by_cases h : n < 10 <;> simp [h]

theorem natChars_head (n : Nat) :
    ∃ d t, natChars n = digitChar d :: t ∧ d < 10 := by
  induction n using Nat.strong_induction_on with
  | _ n ih =>
    rw [natChars_eq]
    by_cases h : n < 10
    · exact ⟨n, [], by simp [h], h⟩
    · obtain ⟨d, t, hd, hd10⟩ := ih (n / 10) (by omega)
      exact ⟨d, t ++ [digitChar (n % 10)], by simp [h, hd], hd10⟩

theorem natChars_all_digits (n : Nat) : ∀ c ∈ natChars n, c.isDigit = true := by
  induction n using Nat.strong_induction_on with
  | _ n ih =>
    intro c hc
    rw [natChars_eq] at hc
    by_cases h : n < 10
    · rw [if_pos h] at hc
      simp at hc
      subst hc
      exact (isDigit_iff _).mpr (by rw [toNat_digitChar _ h]; omega)
    · rw [if_neg h] at hc
      rcases List.mem_append.mp hc with hc | hc
      · exact ih (n / 10) (by omega) c hc
      · simp at hc
        subst hc
        exact (isDigit_iff _).mpr (by rw [toNat_digitChar _ (by omega)]; omega)

theorem digitVal_digitChar (d : Nat) (h : d < 10) :
    digitVal (digitChar d) = d := by
  unfold digitVal
  rw [toNat_digitChar _ h]
  omega

theorem natChars_foldl (n : Nat) :
    ∀ acc : Nat,
      (natChars n).foldl (fun a c => a * 10 + digitVal c) acc =
        acc * 10 ^ (natChars n).length + n := by
  induction n using Nat.strong_induction_on with
  | _ n ih =>
    intro acc
    rw [natChars_eq]
    by_cases h : n < 10
    · rw [if_pos h]
      simp [digitVal_digitChar n h]
    · rw [if_neg h, List.foldl_append, ih (n / 10) (by omega) acc]
      simp only [List.foldl_cons, List.foldl_nil, List.length_append,
        List.length_singleton]
      rw [digitVal_digitChar _ (show n % 10 < 10 by omega)]
      calc (acc * 10 ^ (natChars (n / 10)).length + n / 10) * 10 + n % 10
          = acc * (10 ^ (natChars (n / 10)).length * 10)
              + (n / 10 * 10 + n % 10) := by ring
        _ = acc * 10 ^ ((natChars (n / 10)).length + 1) + n := by
            rw [← pow_succ]
            congr 1
            omega

theorem takeWhile_all_append (p : Char → Bool) (l r : List Char)
    (hl : ∀ c ∈ l, p c = true) (hr : ∀ c, r.head? = some c → p c = false) :
    (l ++ r).takeWhile p = l ∧ (l ++ r).dropWhile p = r := by
  induction l with
  | nil =>
    simp only [List.nil_append]
    cases r with
    | nil => simp
    | cons c r' =>
      have hc := hr c rfl
      simp [List.takeWhile_cons, List.dropWhile_cons, hc]
  | cons c l' ih =>
    have hc := hl c (List.mem_cons_self c l')
    have ihh := ih (fun x hx => hl x (List.mem_cons_of_mem c hx))
    simp [List.takeWhile_cons, List.dropWhile_cons, hc, ihh.1, ihh.2]

theorem parseNatChars_natChars (n : Nat) (rest : List Char)
    (hrest : noLeadingDigit rest = true) :
    parseNatChars (natChars n ++ rest) = some (n, rest) := by
  have hr : ∀ c, rest.head? = some c → Char.isDigit c = false := by
    intro c hc
    cases rest with
    | nil => simp at hc
    | cons c' r' =>
      simp at hc
      subst hc
      simpa [noLeadingDigit] using hrest
  obtain ⟨htake, hdrop⟩ :=
    takeWhile_all_append Char.isDigit (natChars n) rest (natChars_all_digits n) hr
  have hemp : (natChars n).isEmpty = false := by
    cases hn : natChars n with
    | nil => exact absurd hn (natChars_ne_nil n)
    | cons a l => rfl
  unfold parseNatChars
  rw [htake, hdrop]
  simp only [hemp, Bool.false_eq_true, if_false]
  rw [natChars_foldl n 0]
  simp

theorem parseIntChars_intChars (n : Int) (rest : List Char)
    (hrest : noLeadingDigit rest = true) :
    parseIntChars (intChars n ++ rest) = some (n, rest) := by
  unfold intChars
  by_cases hneg : n < 0
  · rw [if_pos hneg]
    simp only [List.cons_append, parseIntChars, if_pos rfl]
    rw [parseNatChars_natChars _ _ hrest]
    simp only [Option.map_some']
    exact congrArg some (Prod.ext (by omega) rfl)
  · rw [if_neg hneg]
    obtain ⟨d, t, hd, hd10⟩ := natChars_head n.natAbs
    rw [hd]
    simp only [List.cons_append, parseIntChars]
    have hdm : ¬ (digitChar d = '-') := by
      apply ne_char_of_toNat_ne
      rw [toNat_digitChar _ hd10, show ('-').toNat = 45 from rfl]
      omega
    rw [if_neg hdm, ← List.cons_append, ← hd,
      parseNatChars_natChars _ _ hrest]
    simp only [Option.map_some']
    exact congrArg some (Prod.ext (by omega) rfl)

theorem hexVal_hexChar (d : Nat) (h : d < 16) : hexVal (hexChar d) = some d := by
  unfold hexChar hexVal
  by_cases h10 : d < 10
  · rw [if_pos h10, toNat_ofNat_valid _ (isValidChar_of_lt_d800 _ (by omega)),
      if_pos (by omega : 48 ≤ 48 + d ∧ 48 + d ≤ 57)]
    exact congrArg some (by omega)
  · rw [if_neg h10, toNat_ofNat_valid _ (isValidChar_of_lt_d800 _ (by omega)),
      if_neg (by omega : ¬ (48 ≤ 87 + d ∧ 87 + d ≤ 57)),
      if_pos (by omega : 97 ≤ 87 + d ∧ 87 + d ≤ 102)]
    exact congrArg some (by omega)

theorem parseStrBody_escapeChars (cs : List Char) :
    ∀ fuel rest, cs.length + 1 ≤ fuel →
      parseStrBody fuel (escapeChars cs ++ ('"' :: rest)) = some (cs, rest) := by
  induction cs with
  | nil =>
    intro fuel rest hf
    obtain ⟨f, rfl⟩ : ∃ f, fuel = f + 1 := ⟨fuel - 1, by omega⟩
    simp [escapeChars, parseStrBody]
  | cons c cs ih =>
    intro fuel rest hf
    obtain ⟨f, rfl⟩ : ∃ f, fuel = f + 1 := ⟨fuel - 1, by omega⟩
    have hih := ih f rest (by simp only [List.length_cons] at hf; omega)
    simp only [escapeChars, List.append_assoc]
    by_cases h1 : c = '"'
    · subst h1
      simp [escapeChar, parseStrBody, unescapeChar, hih]
    · by_cases h2 : c = '\\'
      · subst h2
        simp [escapeChar, parseStrBody, unescapeChar, hih]
      · by_cases h3 : c = '\n'
        · subst h3
          simp [escapeChar, parseStrBody, unescapeChar, hih]
        · by_cases h4 : c = '\t'
          · subst h4
            simp [escapeChar, parseStrBody, unescapeChar, hih]
          · by_cases h5 : c = '\r'
            · subst h5
              simp [escapeChar, parseStrBody, unescapeChar, hih]
            · by_cases hb : c.toNat = 8
              · have hc8 : Char.ofNat 8 = c := by rw [← hb, Char.ofNat_toNat]
                simp only [escapeChar, if_neg h1, if_neg h2, if_neg h3,
                  if_neg h4, if_neg h5, hb]
                simp [parseStrBody, unescapeChar, hih, hc8]
                exact hc8
              · by_cases hf12 : c.toNat = 12
                · have hc12 : Char.ofNat 12 = c := by
                    rw [← hf12, Char.ofNat_toNat]
                  simp only [escapeChar, if_neg h1, if_neg h2, if_neg h3,
                    if_neg h4, if_neg h5, if_neg hb, hf12]
                  simp [parseStrBody, unescapeChar, hih, hc12]
                  exact hc12
                · by_cases hlt : c.toNat < 32
                  · simp only [escapeChar, if_neg h1, if_neg h2, if_neg h3,
                      if_neg h4, if_neg h5, if_neg hb, if_neg hf12, if_pos hlt]
                    have hdiv : c.toNat / 16 < 16 := by omega
                    have hmod : c.toNat % 16 < 16 := by omega
                    have hcode : c.toNat / 16 * 16 + c.toNat % 16 = c.toNat := by
                      omega
                    have hns : ¬ (55296 ≤ c.toNat ∧ c.toNat ≤ 57343) := by omega
                    simp only [parseStrBody, List.cons_append, unescapeChar]
                    simp [show hexVal ('0') = some 0 from rfl,
                      hexVal_hexChar _ hdiv, hexVal_hexChar _ hmod, hcode,
                      hns, Char.ofNat_toNat, hih]
                  · simp only [escapeChar, if_neg h1, if_neg h2, if_neg h3,
                      if_neg h4, if_neg h5, if_neg hb, if_neg hf12, if_neg hlt]
                    simp [parseStrBody, h1, h2, hlt, hih]

theorem skipWs_ws_cons (c : Char) (s : List Char) (h : isWs c = true) :
    skipWs (c :: s) = skipWs s := by
  simp [skipWs, h]

theorem parseVal_congr_skipWs (fuel : Nat) (s1 s2 : List Char)
    (h : skipWs s1 = skipWs s2) : parseVal fuel s1 = parseVal fuel s2 := by
  cases fuel with
  | zero => rfl
  | succ f => simp only [parseVal, h]

theorem parseMembers_congr_skipWs (fuel : Nat) (s1 s2 : List Char)
    (h : skipWs s1 = skipWs s2) :
    parseMembers fuel s1 = parseMembers fuel s2 := by
  cases fuel with
  | zero => rfl
  | succ f => simp only [parseMembers, h]

theorem parseElems_congr_skipWs (fuel : Nat) (s1 s2 : List Char)
    (h : skipWs s1 = skipWs s2) :
    parseElems fuel s1 = parseElems fuel s2 := by
  cases fuel with
  | zero => rfl
  | succ f =>
    simp only [parseElems]
    rw [parseVal_congr_skipWs f s1 s2 h]

theorem dumpVal_head (v : Value) :
    ∃ c t, dumpVal v = c :: t ∧ isWs c = false ∧ c ≠ ']' ∧ c ≠ closeBrace := by
  cases v with
  | null => exact ⟨'n', _, rfl, by decide⟩
  | bool b =>
    cases b with
    | true => exact ⟨'t', _, rfl, by decide⟩
    | false => exact ⟨'f', _, rfl, by decide⟩
  | int n =>
    show ∃ c t, intChars n = c :: t ∧ _
    unfold intChars
    by_cases hneg : n < 0
    · rw [if_pos hneg]
      exact ⟨'-', _, rfl, by decide⟩
    · rw [if_neg hneg]
      obtain ⟨d, t, hd, hd10⟩ := natChars_head n.natAbs
      refine ⟨digitChar d, t, hd, ?_, ?_, ?_⟩
      · exact isWs_eq_false _ (by rw [toNat_digitChar _ hd10]; omega)
      · exact ne_char_of_toNat_ne _ _
          (by rw [toNat_digitChar _ hd10, show (']').toNat = 93 from rfl]; omega)
      · exact ne_char_of_toNat_ne _ _
          (by rw [toNat_digitChar _ hd10,
            show closeBrace.toNat = 125 from rfl]; omega)
  | str s => exact ⟨'"', _, rfl, by decide⟩
  | list xs => exact ⟨'[', _, rfl, by decide⟩
  | dict kvs => exact ⟨openBrace, _, rfl, by decide⟩

theorem value_ind (P : Value → Prop)
    (hnull : P .null) (hbool : ∀ b, P (.bool b)) (hint : ∀ n, P (.int n))
    (hstr : ∀ s, P (.str s))
    (hlist : ∀ xs, (∀ x ∈ xs, P x) → P (.list xs))
    (hdict : ∀ kvs, (∀ kv ∈ kvs, P kv.2) → P (.dict kvs)) :
    ∀ v, P v
  | .null => hnull
  | .bool b => hbool b
  | .int n => hint n
  | .str s => hstr s
  | .list xs =>
      hlist xs (fun x hx => value_ind P hnull hbool hint hstr hlist hdict x)
  | .dict kvs =>
      hdict kvs (fun kv hkv => value_ind P hnull hbool hint hstr hlist hdict kv.2)
termination_by v => sizeOf v
decreasing_by
  · have h := List.sizeOf_lt_of_mem hx
    simp only [Value.list.sizeOf_spec]
    omega
  · have h := List.sizeOf_lt_of_mem hkv
    have h2 : sizeOf kv.2 < sizeOf kv := by
      obtain ⟨a, b⟩ := kv
      simp only [Prod.mk.sizeOf_spec]
      omega
    simp only [Value.dict.sizeOf_spec]
    omega

theorem parseElems_dumpElems :
    ∀ xs : List Value,
      (∀ x ∈ xs, ∀ fuel rest, cost x ≤ fuel → noLeadingDigit rest = true →
        parseVal fuel (dumpVal x ++ rest) = some (x, rest)) →
      ∀ fuel rest, xs ≠ [] → costElems xs ≤ fuel →
        parseElems fuel (dumpElems xs ++ (']' :: rest)) = some (xs, rest) := by
  intro xs
  induction xs with
  | nil => intro _ fuel rest hne _; exact absurd rfl hne
  | cons x xs ih =>
    intro hP fuel rest _ hc
    simp only [costElems] at hc
    obtain ⟨f, rfl⟩ : ∃ f, fuel = f + 1 := ⟨fuel - 1, by omega⟩
    have hcx : cost x ≤ f := by omega
    have hcxs : costElems xs ≤ f := by omega
    cases xs with
    | nil =>
      rw [show dumpElems [x] = dumpVal x from by simp [dumpElems]]
      have h1 := hP x (List.mem_cons_self x []) f (']' :: rest) hcx rfl
      simp only [parseElems, h1]
      rw [show skipWs (']' :: rest) = ']' :: rest from rfl]
      simp
    | cons y ys =>
      rw [show dumpElems (x :: y :: ys)
            = dumpVal x ++ (',' :: ' ' :: dumpElems (y :: ys)) from rfl,
        List.append_assoc]
      simp only [List.cons_append]
      have h1 := hP x (List.mem_cons_self x (y :: ys)) f
        (',' :: ' ' :: (dumpElems (y :: ys) ++ (']' :: rest))) hcx rfl
      simp only [parseElems, h1]
      rw [show skipWs (',' :: ' ' :: (dumpElems (y :: ys) ++ (']' :: rest)))
            = ',' :: (' ' :: (dumpElems (y :: ys) ++ (']' :: rest))) from rfl]
      have hcong : parseElems f (' ' :: (dumpElems (y :: ys) ++ (']' :: rest)))
          = parseElems f (dumpElems (y :: ys) ++ (']' :: rest)) :=
        parseElems_congr_skipWs _ _ _ (skipWs_ws_cons ' ' _ rfl)
      have ihh := ih (fun z hz => hP z (List.mem_cons_of_mem x hz)) f rest
        (by simp) hcxs
      simp [hcong, ihh]

theorem parseMembers_dumpMembers :
    ∀ kvs : List (String × Value),
      (∀ kv ∈ kvs, ∀ fuel rest, cost kv.2 ≤ fuel → noLeadingDigit rest = true →
        parseVal fuel (dumpVal kv.2 ++ rest) = some (kv.2, rest)) →
      ∀ fuel rest, kvs ≠ [] → costMembers kvs ≤ fuel →
        parseMembers fuel (dumpMembers kvs ++ (closeBrace :: rest)) =
          some (kvs, rest) := by
  intro kvs
  induction kvs with
  | nil => intro _ fuel rest hne _; exact absurd rfl hne
  | cons kv kvs ih =>
    obtain ⟨k, v⟩ := kv
    intro hP fuel rest _ hc
    simp only [costMembers] at hc
    replace hc :
        1 + (k.data.length + 1) + 1 + cost v + costMembers kvs ≤ fuel := hc
    obtain ⟨f, rfl⟩ : ∃ f, fuel = f + 1 := ⟨fuel - 1, by omega⟩
    have hkl : k.data.length + 1 ≤ f := by omega
    have hcv : cost v ≤ f := by omega
    have hckvs : costMembers kvs ≤ f := by omega
    cases kvs with
    | nil =>
      rw [show dumpMembers [(k, v)] ++ (closeBrace :: rest)
            = '"' :: (escapeChars k.data
                ++ ('"' :: ':' :: ' ' :: (dumpVal v ++ (closeBrace :: rest))))
          from by simp [dumpMembers]]
      have hstr := parseStrBody_escapeChars k.data f
        (':' :: ' ' :: (dumpVal v ++ (closeBrace :: rest))) hkl
      have hpv : parseVal f (' ' :: (dumpVal v ++ (closeBrace :: rest)))
          = parseVal f (dumpVal v ++ (closeBrace :: rest)) :=
        parseVal_congr_skipWs _ _ _ (skipWs_ws_cons ' ' _ rfl)
      have hv := hP (k, v) (List.mem_cons_self _ _) f (closeBrace :: rest)
        hcv rfl
      simp only [parseMembers]
      rw [show skipWs ('"' :: (escapeChars k.data
            ++ ('"' :: ':' :: ' ' :: (dumpVal v ++ (closeBrace :: rest)))))
          = '"' :: (escapeChars k.data
            ++ ('"' :: ':' :: ' ' :: (dumpVal v ++ (closeBrace :: rest))))
        from rfl]
      simp only [closeBrace] at hstr hpv hv ⊢
      simp [hstr, hpv, hv, skipWs, isWs, show String.mk k.data = k from rfl]
    | cons kv2 kvs2 =>
      rw [show dumpMembers ((k, v) :: kv2 :: kvs2) ++ (closeBrace :: rest)
            = '"' :: (escapeChars k.data
                ++ ('"' :: ':' :: ' ' :: (dumpVal v ++ (',' :: ' ' ::
                    (dumpMembers (kv2 :: kvs2) ++ (closeBrace :: rest))))))
          from by simp [dumpMembers]]
      have hstr := parseStrBody_escapeChars k.data f
        (':' :: ' ' :: (dumpVal v ++ (',' :: ' ' ::
          (dumpMembers (kv2 :: kvs2) ++ (closeBrace :: rest))))) hkl
      have hpv : parseVal f (' ' :: (dumpVal v ++ (',' :: ' ' ::
            (dumpMembers (kv2 :: kvs2) ++ (closeBrace :: rest)))))
          = parseVal f (dumpVal v ++ (',' :: ' ' ::
            (dumpMembers (kv2 :: kvs2) ++ (closeBrace :: rest)))) :=
        parseVal_congr_skipWs _ _ _ (skipWs_ws_cons ' ' _ rfl)
      have hv := hP (k, v) (List.mem_cons_self _ _) f (',' :: ' ' ::
        (dumpMembers (kv2 :: kvs2) ++ (closeBrace :: rest))) hcv rfl
      have hmem : parseMembers f (' ' ::
            (dumpMembers (kv2 :: kvs2) ++ (closeBrace :: rest)))
          = parseMembers f
            (dumpMembers (kv2 :: kvs2) ++ (closeBrace :: rest)) :=
        parseMembers_congr_skipWs _ _ _ (skipWs_ws_cons ' ' _ rfl)
      have ihh := ih (fun z hz => hP z (List.mem_cons_of_mem (k, v) hz)) f rest
        (by simp) hckvs
      simp only [parseMembers]
      rw [show skipWs ('"' :: (escapeChars k.data
            ++ ('"' :: ':' :: ' ' :: (dumpVal v ++ (',' :: ' ' ::
                (dumpMembers (kv2 :: kvs2) ++ (closeBrace :: rest)))))))
          = '"' :: (escapeChars k.data
            ++ ('"' :: ':' :: ' ' :: (dumpVal v ++ (',' :: ' ' ::
                (dumpMembers (kv2 :: kvs2) ++ (closeBrace :: rest))))))
        from rfl]
      simp only [closeBrace] at hstr hpv hv hmem ihh ⊢
      simp [hstr, hpv, hv, hmem, ihh, skipWs, isWs,
        show String.mk k.data = k from rfl]

theorem parseVal_dumpVal :
    ∀ v : Value, ∀ fuel rest, cost v ≤ fuel → noLeadingDigit rest = true →
      parseVal fuel (dumpVal v ++ rest) = some (v, rest) := by
  intro v
  induction v using value_ind with
  | hnull =>
    intro fuel rest hc hrest
    simp only [cost] at hc
    obtain ⟨f, rfl⟩ : ∃ f, fuel = f + 1 := ⟨fuel - 1, by omega⟩
    simp [dumpVal, parseVal, skipWs, isWs, openBrace,
      show ("null" : String).data = ['n', 'u', 'l', 'l'] from rfl]
  | hbool b =>
    intro fuel rest hc hrest
    simp only [cost] at hc
    obtain ⟨f, rfl⟩ : ∃ f, fuel = f + 1 := ⟨fuel - 1, by omega⟩
    cases b <;>
      simp [dumpVal, parseVal, skipWs, isWs, openBrace,
        show ("true" : String).data = ['t', 'r', 'u', 'e'] from rfl,
        show ("false" : String).data = ['f', 'a', 'l', 's', 'e'] from rfl]
  | hint n =>
    intro fuel rest hc hrest
    simp only [cost] at hc
    obtain ⟨f, rfl⟩ : ∃ f, fuel = f + 1 := ⟨fuel - 1, by omega⟩
    obtain ⟨c0, t0, hct, hrange⟩ :
        ∃ c0 t0, intChars n = c0 :: t0 ∧
          (c0.toNat = 45 ∨ (48 ≤ c0.toNat ∧ c0.toNat ≤ 57)) := by
      unfold intChars
      by_cases hneg : n < 0
      · rw [if_pos hneg]
        exact ⟨'-', _, rfl, Or.inl rfl⟩
      · rw [if_neg hneg]
        obtain ⟨d, t, hd, hd10⟩ := natChars_head n.natAbs
        exact ⟨digitChar d, t, hd,
          Or.inr (by rw [toNat_digitChar _ hd10]; omega)⟩
    have hq : ¬ (c0 = '"') := ne_char_of_toNat_ne _ _
      (by rw [show ('"').toNat = 34 from rfl]; omega)
    have hlb : ¬ (c0 = '[') := ne_char_of_toNat_ne _ _
      (by rw [show ('[').toNat = 91 from rfl]; omega)
    have hob : ¬ (c0 = openBrace) := ne_char_of_toNat_ne _ _
      (by rw [show openBrace.toNat = 123 from rfl]; omega)
    have hn : ¬ (c0 = 'n') := ne_char_of_toNat_ne _ _
      (by rw [show ('n').toNat = 110 from rfl]; omega)
    have ht : ¬ (c0 = 't') := ne_char_of_toNat_ne _ _
      (by rw [show ('t').toNat = 116 from rfl]; omega)
    have hf2 : ¬ (c0 = 'f') := ne_char_of_toNat_ne _ _
      (by rw [show ('f').toNat = 102 from rfl]; omega)
    have hws : isWs c0 = false := isWs_eq_false _ (by omega)
    have hi := parseIntChars_intChars n rest hrest
    rw [show dumpVal (.int n) = intChars n from rfl, hct]
    have hskip : skipWs (c0 :: (t0 ++ rest)) = c0 :: (t0 ++ rest) :=
      skipWs_cons_of_not_ws _ _ hws
    simp only [List.cons_append, parseVal, hskip, if_neg hq, if_neg hlb,
      if_neg hob, if_neg hn, if_neg ht, if_neg hf2]
    rw [← List.cons_append, ← hct, hi]
    rfl
  | hstr s =>
    intro fuel rest hc hrest
    simp only [cost] at hc
    replace hc : 1 + (s.data.length + 1) ≤ fuel := hc
    obtain ⟨f, rfl⟩ : ∃ f, fuel = f + 1 := ⟨fuel - 1, by omega⟩
    have hfl : s.data.length + 1 ≤ f := by omega
    have hstr := parseStrBody_escapeChars s.data f rest hfl
    rw [show dumpVal (.str s) ++ rest
          = '"' :: (escapeChars s.data ++ ('"' :: rest)) from by simp [dumpVal]]
    simp only [parseVal]
    rw [show skipWs ('"' :: (escapeChars s.data ++ ('"' :: rest)))
          = '"' :: (escapeChars s.data ++ ('"' :: rest)) from rfl]
    simp [hstr, show String.mk s.data = s from rfl]
  | hlist xs hxs =>
    intro fuel rest hc hrest
    simp only [cost] at hc
    obtain ⟨f, rfl⟩ : ∃ f, fuel = f + 1 := ⟨fuel - 1, by omega⟩
    cases xs with
    | nil => simp [dumpVal, dumpElems, parseVal, skipWs, isWs, openBrace]
    | cons x xs2 =>
      obtain ⟨c1, t1, hc1, hws1, hne1, hne2⟩ := dumpVal_head x
      have helems := parseElems_dumpElems (x :: xs2) hxs f rest (by simp)
        (by omega)
      rw [show dumpVal (.list (x :: xs2)) ++ rest
            = '[' :: (dumpElems (x :: xs2) ++ (']' :: rest)) from by
          simp [dumpVal]]
      obtain ⟨tL, htL⟩ :
          ∃ tL, dumpElems (x :: xs2) ++ (']' :: rest) = c1 :: tL := by
        rw [show dumpElems (x :: xs2)
              = dumpVal x ++ ((if xs2.isEmpty then [] else [',', ' '])
                  ++ dumpElems xs2) from rfl, hc1]
        exact ⟨t1 ++ ((if xs2.isEmpty then [] else [',', ' '])
          ++ dumpElems xs2) ++ (']' :: rest), by simp⟩
      rw [htL] at helems ⊢
      have hskip : skipWs (c1 :: tL) = c1 :: tL :=
        skipWs_cons_of_not_ws _ _ hws1
      simp only [parseVal]
      rw [show skipWs ('[' :: (c1 :: tL)) = '[' :: (c1 :: tL) from rfl]
      simp [hskip, hne1, helems]
  | hdict kvs hkvs =>
    intro fuel rest hc hrest
    simp only [cost] at hc
    obtain ⟨f, rfl⟩ : ∃ f, fuel = f + 1 := ⟨fuel - 1, by omega⟩
    cases kvs with
    | nil =>
      simp [dumpVal, dumpMembers, parseVal, skipWs, isWs, openBrace,
        closeBrace]
    | cons kv kvs2 =>
      obtain ⟨k, v⟩ := kv
      have hmem := parseMembers_dumpMembers ((k, v) :: kvs2) hkvs f rest
        (by simp) (by omega)
      rw [show dumpVal (.dict ((k, v) :: kvs2)) ++ rest
            = openBrace :: (dumpMembers ((k, v) :: kvs2)
                ++ (closeBrace :: rest)) from by simp [dumpVal]]
      obtain ⟨tD, htD⟩ :
          ∃ tD, dumpMembers ((k, v) :: kvs2) ++ (closeBrace :: rest)
            = '"' :: tD := by
        rw [show dumpMembers ((k, v) :: kvs2)
              = ('"' :: (escapeChars k.data ++ ['"', ':', ' ']))
                  ++ dumpVal v
                  ++ ((if kvs2.isEmpty then [] else [',', ' '])
                      ++ dumpMembers kvs2) from rfl]
        exact ⟨(escapeChars k.data ++ ['"', ':', ' ']) ++ dumpVal v
          ++ ((if kvs2.isEmpty then [] else [',', ' ']) ++ dumpMembers kvs2)
          ++ (closeBrace :: rest), by simp⟩
      rw [htD] at hmem ⊢
      simp only [parseVal]
      rw [show skipWs (openBrace :: ('"' :: tD))
            = openBrace :: ('"' :: tD) from rfl]
      simp only [openBrace] at hmem ⊢
      simp [hmem, skipWs, isWs, closeBrace]

theorem escapeChar_length_pos (c : Char) : 1 ≤ (escapeChar c).length := by
  unfold escapeChar
  split_ifs <;> simp

theorem escapeChars_length_ge (cs : List Char) :
    cs.length ≤ (escapeChars cs).length := by
  induction cs with
  | nil => simp [escapeChars]
  | cons c cs ih =>
    simp only [escapeChars, List.length_append, List.length_cons]
    have := escapeChar_length_pos c
    omega

theorem natChars_length_pos (n : Nat) : 1 ≤ (natChars n).length := by
  obtain ⟨d, t, hd, _⟩ := natChars_head n
  simp [hd]

theorem intChars_length_pos (n : Int) : 1 ≤ (intChars n).length := by
  unfold intChars
  split_ifs
  · simp
  · exact natChars_length_pos _

theorem costElems_le_dump (xs : List Value)
    (h : ∀ x ∈ xs, cost x ≤ (dumpVal x).length) :
    costElems xs ≤ (dumpElems xs).length + 1 := by
  induction xs with
  | nil => simp [costElems, dumpElems]
  | cons x xs ih =>
    have hx := h x (List.mem_cons_self x xs)
    have ihh := ih (fun z hz => h z (List.mem_cons_of_mem x hz))
    cases xs with
    | nil =>
      simp only [costElems, dumpElems, List.isEmpty_nil, if_pos,
        List.nil_append, List.append_nil, List.length_append]
      omega
    | cons y ys =>
      simp only [costElems, dumpElems, List.isEmpty_cons,
        List.length_append, List.length_cons] at ihh ⊢
      simp only [Bool.false_eq_true, if_false, List.length_append,
        List.length_cons, List.length_nil] at ihh ⊢
      omega

theorem costMembers_le_dump (kvs : List (String × Value))
    (h : ∀ kv ∈ kvs, cost kv.2 ≤ (dumpVal kv.2).length) :
    costMembers kvs ≤ (dumpMembers kvs).length + 1 := by
  induction kvs with
  | nil => simp [costMembers, dumpMembers]
  | cons kv kvs ih =>
    obtain ⟨k, v⟩ := kv
    have hx : cost v ≤ (dumpVal v).length := h (k, v) (List.mem_cons_self _ kvs)
    have ihh := ih (fun z hz => h z (List.mem_cons_of_mem (k, v) hz))
    have hesc := escapeChars_length_ge k.data
    have hkl : k.length = k.data.length := rfl
    cases kvs with
    | nil =>
      simp only [costMembers, dumpMembers, List.isEmpty_nil, if_pos,
        List.nil_append, List.append_nil, List.length_append,
        List.length_cons, List.length_nil]
      omega
    | cons kv2 kvs2 =>
      simp only [costMembers, dumpMembers, List.isEmpty_cons,
        Bool.false_eq_true, if_false, List.length_append, List.length_cons,
        List.length_nil] at ihh ⊢
      omega

theorem cost_le_dump : ∀ v : Value, cost v ≤ (dumpVal v).length := by
  intro v
  induction v using value_ind with
  | hnull => decide
  | hbool b => cases b <;> decide
  | hint n =>
    simp only [cost, dumpVal]
    exact intChars_length_pos n
  | hstr s =>
    simp only [cost, dumpVal, List.length_cons, List.length_append]
    have := escapeChars_length_ge s.data
    have hsl : s.length = s.data.length := rfl
    omega
  | hlist xs hxs =>
    have := costElems_le_dump xs hxs
    simp only [cost, dumpVal, List.length_cons, List.length_append,
      List.length_singleton]
    omega
  | hdict kvs hkvs =>
    have := costMembers_le_dump kvs hkvs
    simp only [cost, dumpVal, List.length_cons, List.length_append,
      List.length_singleton]
    omega

theorem json_roundtrip (v : Value) : json_loads (json_dumps v) = some v := by
  have hp : parseVal ((dumpVal v).length + 1) (dumpVal v) = some (v, []) := by
    have h := parseVal_dumpVal v ((dumpVal v).length + 1) []
      (by have := cost_le_dump v; omega) rfl
    rwa [List.append_nil] at h
  unfold json_loads json_dumps
  rw [show (String.mk (dumpVal v)).length = (dumpVal v).length from rfl,
    show (String.mk (dumpVal v)).data = dumpVal v from rfl, hp]
  simp [skipWs]

/-- C6: every line the render stage produces is a header followed by
the serialized event record, and parsing that JSON body with a JSON
parser recovers exactly the event record as it stood immediately
before rendering. -/
theorem rendered_body_roundtrip (st : AWSCloudWatchLogs) (name : String)
    (d : EventDict) :
    ∃ hdr, st.call name d = hdr ++ json_dumps (.dict d) ∧
      json_loads (json_dumps (.dict d)) = some (.dict d) :=
  ⟨_, rfl, json_roundtrip (.dict d)⟩

/-- C7: on the concrete record
`{"event": "login", "status_code": 403, "password": "abc123"}` with
wordlist `["password"]`, callouts `["status_code", "event"]` and method
name `"warning"`, censoring then rendering produces exactly the line
`[WARNING] "403" "login" ` followed by the JSON object with
`"password"` censored and the other fields intact. -/
theorem concrete_scenario_warning_line :
    make_censor (.list ["password"]) = .ok (.censorList ["password"]) ∧
    (AWSCloudWatchLogs.ofCallouts (.list ["status_code", "event"])).call
        "warning"
        (censor_every_word ["password"]
          [("event", Value.str "login"), ("status_code", Value.int 403),
           ("password", Value.str "abc123")]) =
      "[WARNING] \"403\" \"login\" \x7b\"event\": \"login\", \"status_code\": 403, \"password\": \"*CENSORED*\"\x7d" := by
  exact ⟨rfl, by decide⟩

end LoggerCloudwatch
